import Mathlib

/-!
Verification development for the client-side URL shortener in `src/App.jsx`.

The program keeps an ordered collection of link records in a single
`localStorage` slot, serialized as JSON.  Two platform builtins are modelled
here as executable Lean functions: `JSON.stringify` / `JSON.parse` (with
numbers restricted to the integer numerals that actually occur in the
persisted format — epoch-millisecond timestamps — since JavaScript floats are
outside the embedding), and string helpers such as ASCII lower-casing.  All
application-level functions (`loadLinks`, `saveLinks`, `handleRedirect`,
`validate`, `onSubmit`, `submitToBackend`, the `stats` computation) are
translated line by line from the source.
-/

namespace UrlShort

/-! ### Characters and decimal digits -/

/-- JSON whitespace characters (space, tab, line feed, carriage return). -/
def isWsChar (c : Char) : Bool :=
  c = ' ' || c = '\t' || c = '\n' || c = '\r'

/-- Decimal digit test. -/
def isDigitC (c : Char) : Bool :=
  '0' ≤ c && c ≤ '9'

/-- The character for a single decimal digit value. -/
def digitChar (d : Nat) : Char :=
  Char.ofNat (48 + d)

/-- Numeric value of a decimal digit character. -/
def digitVal (c : Char) : Nat :=
  c.toNat - 48

/-- Decimal numeral of a natural number, most significant digit first
(auxiliary, fuelled by the number itself). -/
def natToCharsAux : Nat → Nat → List Char
  | 0, _ => []
  | Nat.succ _, 0 => []
  | Nat.succ fuel, n => natToCharsAux fuel (n / 10) ++ [digitChar (n % 10)]

/-- Decimal numeral of a natural number, as emitted by `JSON.stringify`. -/
def natToChars (n : Nat) : List Char :=
  if n = 0 then ['0'] else natToCharsAux (n + 1) n

/-- Value of a most-significant-first digit list. -/
def digitsToNat (ds : List Char) : Nat :=
  ds.foldl (fun acc c => 10 * acc + digitVal c) 0

/-- Split the longest leading run of decimal digits from the input. -/
def takeDigits : List Char → List Char × List Char
  | [] => ([], [])
  | c :: cs =>
    if isDigitC c then
      let (ds, rest) := takeDigits cs
      (c :: ds, rest)
    else ([], c :: cs)

/-- Lower-case hexadecimal digit character (used in `\u00XX` escapes). -/
def hexDigitChar (d : Nat) : Char :=
  if d < 10 then Char.ofNat (48 + d) else Char.ofNat (87 + d)

/-- Numeric value of a hexadecimal digit character, if it is one. -/
def hexVal? (c : Char) : Option Nat :=
  if '0' ≤ c && c ≤ '9' then some (c.toNat - 48)
  else if 'a' ≤ c && c ≤ 'f' then some (c.toNat - 87)
  else if 'A' ≤ c && c ≤ 'F' then some (c.toNat - 55)
  else none

/-! ### The JSON value model

JavaScript values produced by `JSON.parse` and consumed by `JSON.stringify`.
Numbers are modelled as integers: the persisted format of this program stores
only epoch-millisecond timestamps and nulls (spec §6), so fractional and
exponent numerals lie outside the model.  Mutual (rather than nested)
inductives keep the induction principles elementary. -/

mutual

inductive Json where
  | null : Json
  | bool : Bool → Json
  | num : Int → Json
  | str : List Char → Json
  | arr : JsonList → Json
  | obj : JsonObj → Json
deriving DecidableEq

inductive JsonList where
  | nil : JsonList
  | cons : Json → JsonList → JsonList
deriving DecidableEq

inductive JsonObj where
  | nil : JsonObj
  | cons : List Char → Json → JsonObj → JsonObj
deriving DecidableEq

end

/-! ### Serializer (model of `JSON.stringify`) -/

/-- Escape one character of a JSON string the way `JSON.stringify` does:
quote and backslash get two-character escapes, control characters get
`\u00XX`, everything else is emitted literally. -/
def escChar (c : Char) : List Char :=
  if c = '"' then ['\\', '"']
  else if c = '\\' then ['\\', '\\']
  else if c.toNat < 32 then
    ['\\', 'u', '0', '0', hexDigitChar (c.toNat / 16), hexDigitChar (c.toNat % 16)]
  else [c]

/-- Escape a whole JSON string body. -/
def escStr (s : List Char) : List Char :=
  s.flatMap escChar

/-- Decimal numeral of an integer. -/
def strNum (n : Int) : List Char :=
  if n < 0 then '-' :: natToChars n.natAbs else natToChars n.natAbs

mutual

/-- Serialized form of a JSON value (no insignificant whitespace, like
`JSON.stringify` with no spacing argument). -/
def strVal : Json → List Char
  | .num n => strNum n
  | .str s => '"' :: (escStr s ++ ['"'])
  | .bool b => if b then ['t', 'r', 'u', 'e'] else ['f', 'a', 'l', 's', 'e']
  | .null => ['n', 'u', 'l', 'l']
  | .arr xs => '[' :: (strItems xs ++ [']'])
  | .obj m => '\x7b' :: (strMembers m ++ ['\x7d'])

/-- Serialized array items (without the surrounding brackets). -/
def strItems : JsonList → List Char
  | .nil => []
  | .cons v tl => strVal v ++ strTail tl

/-- Serialized non-first array items, each preceded by a comma. -/
def strTail : JsonList → List Char
  | .nil => []
  | .cons v tl => ',' :: (strVal v ++ strTail tl)

/-- Serialized object members (without the surrounding braces). -/
def strMembers : JsonObj → List Char
  | .nil => []
  | .cons k v tl => strKV k v ++ strOTail tl

/-- One serialized `"key":value` member. -/
def strKV (k : List Char) (v : Json) : List Char :=
  '"' :: (escStr k ++ '"' :: ':' :: strVal v)

/-- Serialized non-first object members, each preceded by a comma. -/
def strOTail : JsonObj → List Char
  | .nil => []
  | .cons k v tl => ',' :: (strKV k v ++ strOTail tl)

end

/-- Model of `JSON.stringify` on the modelled value type. -/
def Json.stringify (v : Json) : String :=
  String.mk (strVal v)

/-! ### Parser (model of `JSON.parse`)

A fuelled recursive-descent parser over the character list.  `JSON.parse`
throws on malformed input; the model returns `none` there.  Numerals with a
fraction or exponent part make the whole parse fail in the model (see the
note on the value model above). -/

/-- Drop leading JSON whitespace. -/
def skipWs : List Char → List Char
  | [] => []
  | c :: cs => if isWsChar c then skipWs cs else c :: cs

/-- Parse the body of a JSON string after the opening quote, returning the
unescaped contents and the input following the closing quote. -/
def parseStrBody : List Char → Option (List Char × List Char)
  | [] => none
  | c :: cs =>
    if c = '"' then some ([], cs)
    else if c = '\\' then
      match cs with
      | [] => none
      | e :: cs2 =>
        if e = '"' then (parseStrBody cs2).map (fun p => ('"' :: p.1, p.2))
        else if e = '\\' then (parseStrBody cs2).map (fun p => ('\\' :: p.1, p.2))
        else if e = '/' then (parseStrBody cs2).map (fun p => ('/' :: p.1, p.2))
        else if e = 'b' then (parseStrBody cs2).map (fun p => ('\x08' :: p.1, p.2))
        else if e = 'f' then (parseStrBody cs2).map (fun p => ('\x0c' :: p.1, p.2))
        else if e = 'n' then (parseStrBody cs2).map (fun p => ('\n' :: p.1, p.2))
        else if e = 'r' then (parseStrBody cs2).map (fun p => ('\r' :: p.1, p.2))
        else if e = 't' then (parseStrBody cs2).map (fun p => ('\t' :: p.1, p.2))
        else if e = 'u' then
          match cs2 with
          | h1 :: h2 :: h3 :: h4 :: cs3 =>
            match hexVal? h1, hexVal? h2, hexVal? h3, hexVal? h4 with
            | some a, some b, some x, some y =>
              let n := ((a * 16 + b) * 16 + x) * 16 + y
              if n < 55296 then
                (parseStrBody cs3).map (fun p => (Char.ofNat n :: p.1, p.2))
              else none
            | _, _, _, _ => none
          | _ => none
        else none
    else if c.toNat < 32 then none
    else (parseStrBody cs).map (fun p => (c :: p.1, p.2))

/-- True of a digit list that is a forbidden leading-zero numeral. -/
def leadZero : List Char → Bool
  | c :: _ :: _ => c == '0'
  | _ => false

/-- Parse an integer JSON numeral at the head of the input. -/
def parseNumFrom (input : List Char) : Option (Json × List Char) :=
  match input with
  | [] => none
  | c :: cs =>
    if c = '-' then
      match takeDigits cs with
      | ([], _) => none
      | (ds, rest2) =>
        if leadZero ds then none
        else some (.num (-(digitsToNat ds : Int)), rest2)
    else
      match takeDigits (c :: cs) with
      | ([], _) => none
      | (ds, rest2) =>
        if leadZero ds then none
        else some (.num (digitsToNat ds), rest2)

mutual

/-- Parse one JSON value (leading whitespace allowed), returning it and the
rest of the input. -/
def parseVal : Nat → List Char → Option (Json × List Char)
  | 0, _ => none
  | Nat.succ fuel, input =>
    match skipWs input with
    | [] => none
    | c :: cs =>
      if c = 'n' then
        match cs with
        | 'u' :: 'l' :: 'l' :: rest => some (.null, rest)
        | _ => none
      else if c = 't' then
        match cs with
        | 'r' :: 'u' :: 'e' :: rest => some (.bool true, rest)
        | _ => none
      else if c = 'f' then
        match cs with
        | 'a' :: 'l' :: 's' :: 'e' :: rest => some (.bool false, rest)
        | _ => none
      else if c = '"' then
        match parseStrBody cs with
        | some (s, rest) => some (.str s, rest)
        | none => none
      else if c = '[' then
        match skipWs cs with
        | [] => none
        | d :: ds =>
          if d = ']' then some (.arr .nil, ds)
          else
            match parseItems fuel (d :: ds) with
            | some (xs, rest) => some (.arr xs, rest)
            | none => none
      else if c = '\x7b' then
        match skipWs cs with
        | [] => none
        | d :: ds =>
          if d = '\x7d' then some (.obj .nil, ds)
          else
            match parseMembers fuel (d :: ds) with
            | some (m, rest) => some (.obj m, rest)
            | none => none
      else if c = '-' || isDigitC c then parseNumFrom (c :: cs)
      else none

/-- Parse the items of a non-empty JSON array after the opening bracket,
consuming the closing bracket. -/
def parseItems : Nat → List Char → Option (JsonList × List Char)
  | 0, _ => none
  | Nat.succ fuel, input =>
    match parseVal fuel input with
    | none => none
    | some (v, rest) =>
      match skipWs rest with
      | [] => none
      | d :: rest2 =>
        if d = ',' then
          match parseItems fuel rest2 with
          | some (tl, rest3) => some (.cons v tl, rest3)
          | none => none
        else if d = ']' then some (.cons v .nil, rest2)
        else none

/-- Parse the members of a non-empty JSON object after the opening brace,
consuming the closing brace. -/
def parseMembers : Nat → List Char → Option (JsonObj × List Char)
  | 0, _ => none
  | Nat.succ fuel, input =>
    match skipWs input with
    | [] => none
    | q :: cs =>
      if q = '"' then
        match parseStrBody cs with
        | none => none
        | some (k, rest) =>
          match skipWs rest with
          | [] => none
          | d :: rest2 =>
            if d = ':' then
              match parseVal fuel rest2 with
              | none => none
              | some (v, rest3) =>
                match skipWs rest3 with
                | [] => none
                | e2 :: rest4 =>
                  if e2 = ',' then
                    match parseMembers fuel rest4 with
                    | some (m, rest5) => some (.cons k v m, rest5)
                    | none => none
                  else if e2 = '\x7d' then some (.cons k v .nil, rest4)
                  else none
            else none
      else none

end

/-- Model of `JSON.parse`: parse one value, allow trailing whitespace,
reject any other trailing content.  Malformed input yields `none` (the
counterpart of the exception `JSON.parse` throws). -/
def Json.parse (s : String) : Option Json :=
  match parseVal (s.length + 1) s.data with
  | some (v, rest) => if skipWs rest = [] then some v else none
  | none => none

/-! ### Structural size, used to discharge the parser's fuel -/

mutual

/-- Structural size of a JSON value. -/
def sizeJ : Json → Nat
  | .null => 1
  | .bool _ => 1
  | .num _ => 1
  | .str _ => 1
  | .arr xs => sizeL xs + 1
  | .obj m => sizeO m + 1

/-- Structural size of a JSON array body. -/
def sizeL : JsonList → Nat
  | .nil => 0
  | .cons v tl => sizeJ v + sizeL tl + 1

/-- Structural size of a JSON object body. -/
def sizeO : JsonObj → Nat
  | .nil => 0
  | .cons _ v tl => sizeJ v + sizeO tl + 1

end

/-! ### Round-trip lemmas: the parser inverts the serializer -/

theorem skipWs_nonws {c : Char} (cs : List Char) (h : isWsChar c = false) :
    skipWs (c :: cs) = c :: cs := by
  simp [skipWs, h]

/-- All the facts about single decimal-digit characters that the round-trip
proof needs, discharged by enumeration. -/
theorem digitChar_facts : ∀ d, d < 10 →
    isWsChar (digitChar d) = false ∧ isDigitC (digitChar d) = true ∧
    digitVal (digitChar d) = d ∧
    digitChar d ≠ 'n' ∧ digitChar d ≠ 't' ∧ digitChar d ≠ 'f' ∧ digitChar d ≠ '"' ∧
    digitChar d ≠ '[' ∧ digitChar d ≠ '\x7b' ∧ digitChar d ≠ '-' ∧ digitChar d ≠ ']' ∧
    (0 < d → digitChar d ≠ '0') := by
  decide

theorem natToCharsAux_zero : ∀ fuel, natToCharsAux fuel 0 = [] := by
  intro fuel
  cases fuel <;> rfl

theorem natToCharsAux_spec : ∀ fuel n, n < fuel →
    digitsToNat (natToCharsAux fuel n) = n ∧
    (∀ c ∈ natToCharsAux fuel n, isDigitC c = true) ∧
    (0 < n → ∃ d ds, natToCharsAux fuel n = digitChar d :: ds ∧ 0 < d ∧ d < 10) := by
  intro fuel
  induction fuel with
  | zero => intro n h; omega
  | succ fuel ih =>
    intro n h
    match n with
    | 0 =>
      refine ⟨rfl, ?_, ?_⟩
      · intro c hc; simp [natToCharsAux] at hc
      · intro h0; omega
    | Nat.succ m =>
      have hlt : (m + 1) / 10 < fuel := by omega
      obtain ⟨ihv, ihd, ihh⟩ := ih ((m + 1) / 10) hlt
      have heq : natToCharsAux (fuel + 1) (m + 1) =
          natToCharsAux fuel ((m + 1) / 10) ++ [digitChar ((m + 1) % 10)] := rfl
      have hm10 : (m + 1) % 10 < 10 := by omega
      have hval : digitVal (digitChar ((m + 1) % 10)) = (m + 1) % 10 :=
        (digitChar_facts _ hm10).2.2.1
      refine ⟨?_, ?_, ?_⟩
      · rw [heq]
        simp only [digitsToNat, List.foldl_append, List.foldl_cons, List.foldl_nil]
        have : List.foldl (fun acc c => 10 * acc + digitVal c) 0
            (natToCharsAux fuel ((m + 1) / 10)) = (m + 1) / 10 := ihv
        rw [this, hval]
        omega
      · intro c hc
        rw [heq] at hc
        rcases List.mem_append.mp hc with h1 | h1
        · exact ihd c h1
        · simp at h1
          subst h1
          exact (digitChar_facts _ hm10).2.1
      · intro _
        by_cases h0 : 0 < (m + 1) / 10
        · obtain ⟨d, ds, hds, hd0, hd10⟩ := ihh h0
          exact ⟨d, ds ++ [digitChar ((m + 1) % 10)], by rw [heq, hds]; simp, hd0, hd10⟩
        · have hz : (m + 1) / 10 = 0 := by omega
          have hsmall : m + 1 < 10 := by omega
          refine ⟨(m + 1) % 10, [], ?_, by omega, by omega⟩
          rw [heq, hz, natToCharsAux_zero]
          simp

theorem natToChars_spec (n : Nat) :
    digitsToNat (natToChars n) = n ∧
    (∀ c ∈ natToChars n, isDigitC c = true) ∧
    leadZero (natToChars n) = false ∧
    (∃ d ds, natToChars n = digitChar d :: ds ∧ d < 10) := by
  unfold natToChars
  by_cases h0 : n = 0
  · subst h0
    refine ⟨by decide, by decide, by decide, 0, [], by decide, by omega⟩
  · simp only [if_neg h0]
    obtain ⟨hv, hd, hh⟩ := natToCharsAux_spec (n + 1) n (by omega)
    obtain ⟨d, ds, hds, hdpos, hdlt⟩ := hh (by omega)
    refine ⟨hv, hd, ?_, d, ds, hds, hdlt⟩
    rw [hds]
    cases ds with
    | nil => rfl
    | cons e es =>
      have : digitChar d ≠ '0' := (digitChar_facts d hdlt).2.2.2.2.2.2.2.2.2.2.2 hdpos
      simp [leadZero, this]

theorem takeDigits_exact (ds rest : List Char)
    (hd : ∀ c ∈ ds, isDigitC c = true)
    (hr : ∀ c cs, rest = c :: cs → isDigitC c = false) :
    takeDigits (ds ++ rest) = (ds, rest) := by
  induction ds with
  | nil =>
    cases rest with
    | nil => rfl
    | cons c cs => simp [takeDigits, hr c cs rfl]
  | cons c cs ih =>
    have hc : isDigitC c = true := hd c (by simp)
    have ihe := ih (fun x hx => hd x (by simp [hx]))
    simp [takeDigits, hc, ihe]

theorem parseNumFrom_round (n : Int) (rest : List Char)
    (hr : ∀ c cs, rest = c :: cs → isDigitC c = false) :
    parseNumFrom (strNum n ++ rest) = some (.num n, rest) := by
  obtain ⟨hv, hd, hlz, d, ds, hds, hdlt⟩ := natToChars_spec n.natAbs
  have htake : takeDigits (natToChars n.natAbs ++ rest) = (natToChars n.natAbs, rest) :=
    takeDigits_exact _ _ hd hr
  have hdash : digitChar d ≠ '-' := (digitChar_facts d hdlt).2.2.2.2.2.2.2.2.2.1
  by_cases hneg : n < 0
  · have hs : strNum n = '-' :: natToChars n.natAbs := by simp [strNum, hneg]
    rw [hs, List.cons_append]
    simp only [parseNumFrom, reduceIte, htake]
    rw [hds]
    dsimp only
    rw [← hds, hlz]
    simp only [Bool.false_eq_true, if_false, hv]
    have : -((n.natAbs : Nat) : Int) = n := by omega
    rw [this]
  · have hs : strNum n = natToChars n.natAbs := by simp [strNum, hneg]
    rw [hs, hds, List.cons_append]
    simp only [parseNumFrom, if_neg hdash]
    rw [← List.cons_append, ← hds, htake]
    rw [hds]
    dsimp only
    rw [← hds, hlz]
    simp only [Bool.false_eq_true, if_false, hv]
    have : ((n.natAbs : Nat) : Int) = n := by omega
    rw [this]

theorem hexVal_hexDigitChar : ∀ d, d < 16 → hexVal? (hexDigitChar d) = some d := by
  decide

theorem parseStrBody_round (s rest : List Char) :
    parseStrBody (escStr s ++ '"' :: rest) = some (s, rest) := by
  induction s with
  | nil =>
    rw [show escStr [] ++ '"' :: rest = '"' :: rest by simp [escStr]]
    rw [parseStrBody.eq_def]
    simp
  | cons c cs ih =>
    have hstep : escStr (c :: cs) ++ '"' :: rest = escChar c ++ (escStr cs ++ '"' :: rest) := by
      simp [escStr]
    rw [hstep]
    by_cases h1 : c = '"'
    · subst h1
      rw [show escChar '"' = ['\\', '"'] from rfl, List.cons_append, List.cons_append,
        List.nil_append, parseStrBody.eq_def]
      simp [ih]
    · by_cases h2 : c = '\\'
      · subst h2
        rw [show escChar '\\' = ['\\', '\\'] from rfl, List.cons_append, List.cons_append,
          List.nil_append, parseStrBody.eq_def]
        simp [ih]
      · by_cases h3 : c.toNat < 32
        · have hdiv : c.toNat / 16 < 16 := by omega
          have hmod : c.toNat % 16 < 16 := by omega
          have hx1 := hexVal_hexDigitChar _ hdiv
          have hx2 := hexVal_hexDigitChar _ hmod
          have hn : ((0 * 16 + 0) * 16 + c.toNat / 16) * 16 + c.toNat % 16 = c.toNat := by
            omega
          have h55 : c.toNat < 55296 := by omega
          rw [show escChar c = ['\\', 'u', '0', '0', hexDigitChar (c.toNat / 16),
              hexDigitChar (c.toNat % 16)] by simp [escChar, h1, h2, h3]]
          simp only [List.cons_append, List.nil_append]
          rw [parseStrBody.eq_def]
          simp [hx1, hx2, ih]
          rw [show hexVal? '0' = some 0 from rfl]
          simp only [Nat.zero_mul, Nat.zero_add]
          have he : c.toNat / 16 * 16 + c.toNat % 16 = c.toNat := by omega
          simp [he, h55, Char.ofNat_toNat]
        · rw [show escChar c = [c] by simp [escChar, h1, h2, h3], List.cons_append,
            List.nil_append, parseStrBody.eq_def]
          simp [h1, h2, h3, ih]

theorem strNum_head (n : Int) : ∃ c cs, strNum n = c :: cs ∧ isWsChar c = false ∧
    c ≠ 'n' ∧ c ≠ 't' ∧ c ≠ 'f' ∧ c ≠ '"' ∧ c ≠ '[' ∧ c ≠ '\x7b' ∧
    ((c = '-') || isDigitC c) = true ∧ c ≠ ']' := by
  obtain ⟨-, -, -, d, ds, hds, hdlt⟩ := natToChars_spec n.natAbs
  have facts := digitChar_facts d hdlt
  by_cases hneg : n < 0
  · exact ⟨'-', natToChars n.natAbs, by simp [strNum, hneg], by decide, by decide, by decide,
      by decide, by decide, by decide, by decide, by decide, by decide⟩
  · refine ⟨digitChar d, ds, by simp [strNum, hneg, hds], facts.1, facts.2.2.2.1,
      facts.2.2.2.2.1, facts.2.2.2.2.2.1, facts.2.2.2.2.2.2.1, facts.2.2.2.2.2.2.2.1,
      facts.2.2.2.2.2.2.2.2.1, ?_, facts.2.2.2.2.2.2.2.2.2.2.1⟩
    simp [facts.2.1]

/-- The first character of a serialized JSON value is never whitespace and
never a closing bracket. -/
theorem strVal_head (v : Json) : ∃ c cs, strVal v = c :: cs ∧ isWsChar c = false ∧
    c ≠ ']' := by
  cases v with
  | null => exact ⟨'n', ['u', 'l', 'l'], by simp [strVal], by decide, by decide⟩
  | bool b =>
    cases b
    · exact ⟨'f', ['a', 'l', 's', 'e'], by simp [strVal], by decide, by decide⟩
    · exact ⟨'t', ['r', 'u', 'e'], by simp [strVal], by decide, by decide⟩
  | num n =>
    obtain ⟨c, cs, hh, hws, -, -, -, -, -, -, -, hrb⟩ := strNum_head n
    exact ⟨c, cs, by rw [show strVal (.num n) = strNum n by simp [strVal], hh], hws, hrb⟩
  | str s => exact ⟨'"', escStr s ++ ['"'], by simp [strVal], by decide, by decide⟩
  | arr xs => exact ⟨'[', strItems xs ++ [']'], by simp [strVal], by decide, by decide⟩
  | obj m => exact ⟨'\x7b', strMembers m ++ ['\x7d'], by simp [strVal], by decide, by decide⟩

theorem sizeJ_pos (v : Json) : 1 ≤ sizeJ v := by
  cases v <;> simp [sizeJ]

mutual

theorem sizeJ_le : ∀ v : Json, sizeJ v ≤ (strVal v).length
  | .null => by simp [sizeJ, strVal]
  | .bool b => by cases b <;> simp [sizeJ, strVal]
  | .num n => by
    obtain ⟨c, cs, hh, -⟩ := strNum_head n
    simp [sizeJ, strVal, hh]
  | .str s => by simp [sizeJ, strVal]
  | .arr xs => by
    have h := sizeL_le_items xs
    simp only [sizeJ, strVal, List.length_cons, List.length_append]
    omega
  | .obj m => by
    have h := sizeO_le_members m
    simp only [sizeJ, strVal, List.length_cons, List.length_append]
    omega

theorem sizeL_le_items : ∀ xs : JsonList, sizeL xs ≤ (strItems xs).length + 1
  | .nil => by simp [sizeL, strItems]
  | .cons v tl => by
    have h1 := sizeJ_le v
    have h2 := sizeL_le_tail tl
    simp only [sizeL, strItems, List.length_append]
    omega

theorem sizeL_le_tail : ∀ xs : JsonList, sizeL xs ≤ (strTail xs).length
  | .nil => by simp [sizeL, strTail]
  | .cons v tl => by
    have h1 := sizeJ_le v
    have h2 := sizeL_le_tail tl
    simp only [sizeL, strTail, List.length_cons, List.length_append]
    omega

theorem sizeO_le_members : ∀ m : JsonObj, sizeO m ≤ (strMembers m).length + 1
  | .nil => by simp [sizeO, strMembers]
  | .cons k v tl => by
    have h1 := sizeJ_le v
    have h2 := sizeO_le_otail tl
    simp only [sizeO, strMembers, strKV, List.length_append, List.length_cons]
    omega

theorem sizeO_le_otail : ∀ m : JsonObj, sizeO m ≤ (strOTail m).length
  | .nil => by simp [sizeO, strOTail]
  | .cons k v tl => by
    have h1 := sizeJ_le v
    have h2 := sizeO_le_otail tl
    simp only [sizeO, strOTail, strKV, List.length_cons, List.length_append]
    omega

end

/-- Characters that may legitimately follow a serialized value inside a
larger serialized term. -/
def goodRest : List Char → Prop
  | [] => True
  | c :: _ => c = ',' ∨ c = ']' ∨ c = '\x7d'

theorem goodRest_nodigit {rest : List Char} (h : goodRest rest) :
    ∀ c cs, rest = c :: cs → isDigitC c = false := by
  intro c cs heq
  subst heq
  have h2 : c = ',' ∨ c = ']' ∨ c = '\x7d' := h
  rcases h2 with rfl | rfl | rfl <;> decide


/-- Main round-trip induction: with enough fuel, the parser returns exactly
the serialized value and the untouched rest of the input. -/
theorem parse_round : ∀ fuel : Nat,
    (∀ v rest, sizeJ v ≤ fuel → goodRest rest →
      parseVal fuel (strVal v ++ rest) = some (v, rest)) ∧
    (∀ v tl rest, sizeJ v + sizeL tl + 1 ≤ fuel →
      parseItems fuel (strVal v ++ (strTail tl ++ ']' :: rest)) =
        some (JsonList.cons v tl, rest)) ∧
    (∀ k v tl rest, sizeJ v + sizeO tl + 1 ≤ fuel →
      parseMembers fuel (strKV k v ++ (strOTail tl ++ '\x7d' :: rest)) =
        some (JsonObj.cons k v tl, rest)) := by
  intro fuel
  induction fuel with
  | zero =>
    refine ⟨?_, ?_, ?_⟩
    · intro v rest hsz _
      have := sizeJ_pos v
      omega
    · intro v tl rest hsz
      have := sizeJ_pos v
      omega
    · intro k v tl rest hsz
      have := sizeJ_pos v
      omega
  | succ fuel ih =>
    obtain ⟨ihV, ihI, ihM⟩ := ih
    refine ⟨?_, ?_, ?_⟩
    · intro v rest hsz hrest
      cases v with
      | null =>
        rw [show strVal .null = ['n', 'u', 'l', 'l'] by simp [strVal]]
        simp only [List.cons_append, List.nil_append]
        rw [parseVal.eq_def]
        simp [skipWs, isWsChar]
      | bool b =>
        cases b
        · rw [show strVal (.bool false) = ['f', 'a', 'l', 's', 'e'] by simp [strVal]]
          simp only [List.cons_append, List.nil_append]
          rw [parseVal.eq_def]
          simp [skipWs, isWsChar]
        · rw [show strVal (.bool true) = ['t', 'r', 'u', 'e'] by simp [strVal]]
          simp only [List.cons_append, List.nil_append]
          rw [parseVal.eq_def]
          simp [skipWs, isWsChar]
      | num n =>
        obtain ⟨c, cs, hh, hws, hn, ht, hf, hq, hlb, hlcb, hdig, -⟩ := strNum_head n
        have hnum := parseNumFrom_round n rest (goodRest_nodigit hrest)
        rw [show strVal (.num n) = strNum n by simp [strVal], hh, List.cons_append,
          parseVal.eq_def]
        dsimp only
        rw [skipWs_nonws _ hws]
        simp only [if_neg hn, if_neg ht, if_neg hf, if_neg hq, if_neg hlb, if_neg hlcb, hdig,
          if_true]
        rw [← List.cons_append, ← hh, hnum]
      | str s =>
        rw [show strVal (.str s) = '"' :: (escStr s ++ ['"']) by simp [strVal],
          List.cons_append, parseVal.eq_def]
        dsimp only
        rw [skipWs_nonws _ (by decide)]
        simp only [if_neg (show ¬('"' : Char) = 'n' by decide),
          if_neg (show ¬('"' : Char) = 't' by decide),
          if_neg (show ¬('"' : Char) = 'f' by decide),
          if_pos (show ('"' : Char) = '"' from rfl)]
        rw [show (escStr s ++ ['"']) ++ rest = escStr s ++ '"' :: rest by simp,
          parseStrBody_round]
        simp
      | arr xs =>
        cases xs with
        | nil =>
          rw [show strVal (.arr .nil) = ['[', ']'] by simp [strVal, strItems]]
          simp only [List.cons_append, List.nil_append]
          rw [parseVal.eq_def]
          simp [skipWs, isWsChar]
        | cons v tl =>
          have hsz2 : sizeJ v + sizeL tl + 1 ≤ fuel := by
            simp only [sizeJ, sizeL] at hsz
            omega
          obtain ⟨c, cs, hvh, hws, hrb⟩ := strVal_head v
          have hitems := ihI v tl rest hsz2
          rw [show strVal (.arr (.cons v tl)) ++ rest =
              '[' :: (strVal v ++ (strTail tl ++ ']' :: rest)) by
            simp [strVal, strItems], parseVal.eq_def]
          dsimp only
          rw [skipWs_nonws _ (by decide)]
          simp only [if_neg (show ¬('[' : Char) = 'n' by decide),
            if_neg (show ¬('[' : Char) = 't' by decide),
            if_neg (show ¬('[' : Char) = 'f' by decide),
            if_neg (show ¬('[' : Char) = '"' by decide),
            if_pos (show ('[' : Char) = '[' from rfl)]
          rw [hvh, List.cons_append, skipWs_nonws _ hws]
          simp only [if_neg hrb]
          rw [← List.cons_append, ← hvh, hitems]
          simp
      | obj m =>
        cases m with
        | nil =>
          rw [show strVal (.obj .nil) = ['\x7b', '\x7d'] by simp [strVal, strMembers]]
          simp only [List.cons_append, List.nil_append]
          rw [parseVal.eq_def]
          simp [skipWs, isWsChar]
        | cons k v tl =>
          have hsz2 : sizeJ v + sizeO tl + 1 ≤ fuel := by
            simp only [sizeJ, sizeO] at hsz
            omega
          have hmem := ihM k v tl rest hsz2
          rw [show strVal (.obj (.cons k v tl)) ++ rest =
              '\x7b' :: (strKV k v ++ (strOTail tl ++ '\x7d' :: rest)) by
            simp [strVal, strMembers], parseVal.eq_def]
          dsimp only
          rw [skipWs_nonws _ (by decide)]
          simp only [if_neg (show ¬('\x7b' : Char) = 'n' by decide),
            if_neg (show ¬('\x7b' : Char) = 't' by decide),
            if_neg (show ¬('\x7b' : Char) = 'f' by decide),
            if_neg (show ¬('\x7b' : Char) = '"' by decide),
            if_neg (show ¬('\x7b' : Char) = '[' by decide),
            if_pos (show ('\x7b' : Char) = '\x7b' from rfl)]
          rw [show strKV k v ++ (strOTail tl ++ '\x7d' :: rest) =
              '"' :: ((escStr k ++ '"' :: ':' :: strVal v) ++ (strOTail tl ++ '\x7d' :: rest)) by
            simp [strKV], skipWs_nonws _ (by decide)]
          simp only [if_neg (show ¬('"' : Char) = '\x7d' by decide)]
          rw [show '"' :: ((escStr k ++ '"' :: ':' :: strVal v) ++ (strOTail tl ++ '\x7d' :: rest)) =
              strKV k v ++ (strOTail tl ++ '\x7d' :: rest) by simp [strKV], hmem]
          simp
    · intro v tl rest hsz
      have h1 : sizeJ v ≤ fuel := by omega
      have hgr : goodRest (strTail tl ++ ']' :: rest) := by
        cases tl with
        | nil => simp [strTail, goodRest]
        | cons v2 tl2 => simp [strTail, goodRest]
      have hpv := ihV v (strTail tl ++ ']' :: rest) h1 hgr
      rw [parseItems.eq_def]
      dsimp only
      rw [hpv]
      cases tl with
      | nil =>
        simp only [strTail, List.nil_append]
        rw [skipWs_nonws _ (by decide)]
        simp only [if_neg (show ¬(']' : Char) = ',' by decide),
          if_pos (show (']' : Char) = ']' from rfl)]
        simp
      | cons v2 tl2 =>
        have hvpos := sizeJ_pos v
        have hsz2 : sizeJ v2 + sizeL tl2 + 1 ≤ fuel := by
          simp only [sizeL] at hsz
          omega
        have hitems := ihI v2 tl2 rest hsz2
        simp only [strTail, List.cons_append, List.append_assoc]
        rw [skipWs_nonws _ (by decide)]
        simp only [if_pos (show (',' : Char) = ',' from rfl)]
        rw [hitems]
        simp
    · intro k v tl rest hsz
      have h1 : sizeJ v ≤ fuel := by omega
      have hgr : goodRest (strOTail tl ++ '\x7d' :: rest) := by
        cases tl with
        | nil => simp [strOTail, goodRest]
        | cons k2 v2 tl2 => simp [strOTail, goodRest]
      have hpv := ihV v (strOTail tl ++ '\x7d' :: rest) h1 hgr
      rw [show strKV k v ++ (strOTail tl ++ '\x7d' :: rest) =
          '"' :: (escStr k ++ '"' :: (':' :: (strVal v ++ (strOTail tl ++ '\x7d' :: rest)))) by
        simp [strKV], parseMembers.eq_def]
      dsimp only
      rw [skipWs_nonws _ (by decide)]
      simp only [if_pos (show ('"' : Char) = '"' from rfl)]
      rw [parseStrBody_round]
      dsimp only
      rw [skipWs_nonws _ (by decide)]
      simp only [if_pos (show (':' : Char) = ':' from rfl)]
      rw [hpv]
      cases tl with
      | nil =>
        simp only [strOTail, List.nil_append]
        rw [skipWs_nonws _ (by decide)]
        simp only [if_neg (show ¬('\x7d' : Char) = ',' by decide),
          if_pos (show ('\x7d' : Char) = '\x7d' from rfl)]
        simp
      | cons k2 v2 tl2 =>
        have hvpos := sizeJ_pos v
        have hsz2 : sizeJ v2 + sizeO tl2 + 1 ≤ fuel := by
          simp only [sizeO] at hsz
          omega
        have hmem := ihM k2 v2 tl2 rest hsz2
        simp only [strOTail, List.cons_append, List.append_assoc]
        rw [skipWs_nonws _ (by decide)]
        simp only [if_pos (show (',' : Char) = ',' from rfl)]
        rw [hmem]
        simp

/-- The parser inverts the serializer: a `JSON.parse` of a `JSON.stringify`
output returns exactly the serialized value. -/
theorem parse_stringify (v : Json) : Json.parse (Json.stringify v) = some v := by
  have h2 : (Json.stringify v).length = (strVal v).length := by
    simp [Json.stringify, String.length_mk]
  have hsz : sizeJ v ≤ (Json.stringify v).length + 1 := by
    have h1 := sizeJ_le v
    omega
  have h := (parse_round ((Json.stringify v).length + 1)).1 v [] hsz (by trivial)
  rw [List.append_nil] at h
  unfold Json.parse
  have hdata : (Json.stringify v).data = strVal v := rfl
  rw [hdata, h]
  simp [skipWs]

/-! ### The application data model (translated from `src/App.jsx`) -/

/-- ASCII lower-casing, the effect of JavaScript `toLowerCase` on the ASCII
code points that short codes consist of (codes are sanitized to
`[0-9A-Za-z_-]` at creation time). -/
def lowerStr (s : String) : String :=
  String.mk (s.data.map Char.toLower)

/-- One logged visit (the object pushed in line 70 of the source:
`{ ts: now(), ref: document.referrer || '(direct)', ...deviceMeta() }`). -/
structure VisitRecord where
  ts : Int
  ref : String
  os : String
  lang : String
  tz : String
  screen : String
deriving DecidableEq

/-- One stored link (the object built in line 57 of the source:
`{ code, longUrl: item.longUrl, createdAt, expiryTs, visits: [] }`). -/
structure LinkRecord where
  code : String
  longUrl : String
  createdAt : Int
  expiryTs : Option Int
  visits : List VisitRecord
deriving DecidableEq

/-- Convert a Lean list of JSON values into the mutual-inductive list form. -/
def jlist : List Json → JsonList
  | [] => .nil
  | v :: tl => .cons v (jlist tl)

/-- JSON encoding of a visit record, keys in the insertion order of the
object literal in line 70. -/
def encodeVisit (v : VisitRecord) : Json :=
  .obj (.cons "ts".data (.num v.ts)
    (.cons "ref".data (.str v.ref.data)
      (.cons "os".data (.str v.os.data)
        (.cons "lang".data (.str v.lang.data)
          (.cons "tz".data (.str v.tz.data)
            (.cons "screen".data (.str v.screen.data) .nil))))))

/-- JSON encoding of a link record, keys in the insertion order of the
object literal in line 57; a missing expiry is stored as JSON `null`. -/
def encodeLink (l : LinkRecord) : Json :=
  .obj (.cons "code".data (.str l.code.data)
    (.cons "longUrl".data (.str l.longUrl.data)
      (.cons "createdAt".data (.num l.createdAt)
        (.cons "expiryTs".data (match l.expiryTs with | none => .null | some e => .num e)
          (.cons "visits".data (.arr (jlist (l.visits.map encodeVisit))) .nil)))))

/-- JSON encoding of the whole stored collection (a JSON array). -/
def encodeLinks (links : List LinkRecord) : Json :=
  .arr (jlist (links.map encodeLink))

/-- `saveLinks` (source lines 12-14): serializes the entire collection with
`JSON.stringify` and overwrites the single storage slot; the model returns
the string that is stored. -/
def saveLinks (links : List LinkRecord) : String :=
  Json.stringify (encodeLinks links)

/-- `loadLinks` (source lines 5-11):
`try { return JSON.parse(localStorage.getItem(KEY) || '[]') } catch { return [] }`.
The slot is `none` when the key is absent.  A missing or empty (falsy) slot
string is replaced by `"[]"` before parsing; a parse failure (the exception)
yields the empty array.  A successfully parsed value is returned as is,
whatever its shape. -/
def loadLinks (slot : Option String) : Json :=
  let s := match slot with
    | none => "[]"
    | some t => if t = "" then "[]" else t
  match Json.parse s with
  | some v => v
  | none => .arr .nil

/-! ### The redirect resolver (`handleRedirect`, source lines 62-73) -/

/-- Strip a single leading `#` and at most one following `/`
(the `hash.replace(/^#\/?/, '')` of line 63). -/
def stripHashMark : List Char → List Char
  | '#' :: '/' :: rest => rest
  | '#' :: rest => rest
  | s => s

/-- JavaScript line terminators, which `.` in a regex does not match. -/
def isLineTerm (c : Char) : Bool :=
  c = '\n' || c = '\r' || c = '\u2028' || c = '\u2029'

/-- The `hash.match(/^r\/(.+)$/)` of line 64, applied to the stripped
fragment: succeeds exactly when the fragment is `r/` followed by a non-empty
code containing no line terminator, and returns that code. -/
def extractRedirectCode (hash : String) : Option String :=
  match stripHashMark hash.data with
  | 'r' :: '/' :: rest =>
    if rest.isEmpty then none
    else if rest.all (fun c => !(isLineTerm c)) then some (String.mk rest)
    else none
  | _ => none

/-- The lookup of line 68, `links.find(l => l.code === code)`:
case-sensitive exact match, first hit wins.  (Spec section 4.1 names this
operation `findByCode`.) -/
def findByCode (links : List LinkRecord) (code : String) : Option LinkRecord :=
  links.find? (fun l => l.code == code)

/-- Device metadata as captured by `deviceMeta()` (source lines 36-47), a
platform read; the resolver only copies these four strings into the visit. -/
structure DeviceMeta where
  os : String
  lang : String
  tz : String
  screen : String
deriving DecidableEq

/-- The visit record constructed in line 70; an empty referrer (falsy) is
replaced by the sentinel `"(direct)"`. -/
def mkVisit (ts : Int) (referrer : String) (m : DeviceMeta) : VisitRecord :=
  { ts := ts
    ref := if referrer = "" then "(direct)" else referrer
    os := m.os
    lang := m.lang
    tz := m.tz
    screen := m.screen }

/-- The in-place `link.visits.push(...)` of line 70 under value semantics:
the first record whose code matches gets the visit appended; everything else
is untouched. -/
def appendVisitFirst : List LinkRecord → String → VisitRecord → List LinkRecord
  | [], _, _ => []
  | l :: rest, code, v =>
    if l.code == code then { l with visits := l.visits ++ [v] } :: rest
    else l :: appendVisitFirst rest code v

/-- The observable effects of one `handleRedirect` run: `saved = some links2`
means `saveLinks(links2)` was called (line 71); `navReplace = some url` means
`window.location.replace(url)` was called (line 72), which replaces the
current history entry rather than pushing a new one. -/
structure HRResult where
  saved : Option (List LinkRecord)
  navReplace : Option String
deriving DecidableEq

/-- `handleRedirect` (source lines 62-73) over the loaded store: parse the
fragment; on a pattern match, look the code up; on a hit, append one visit to
the matched record, save the full collection, and navigate (replace) to the
record's long URL.  Otherwise do nothing. -/
def handleRedirect (hash : String) (links : List LinkRecord) (ts : Int)
    (referrer : String) (meta : DeviceMeta) : HRResult :=
  match extractRedirectCode hash with
  | none => ⟨none, none⟩
  | some code =>
    match findByCode links code with
    | none => ⟨none, none⟩
    | some link =>
      ⟨some (appendVisitFirst links code (mkVisit ts referrer meta)), some link.longUrl⟩

/-! ### The creation flow (`validate` / `onSubmit` / `submitToBackend`,
source lines 49-60 and 95-129) -/

/-- The characters the sanitizer keeps: `[0-9A-Za-z_-]` (line 25). -/
def isCodeChar (c : Char) : Bool :=
  ('0' ≤ c && c ≤ '9') || ('A' ≤ c && c ≤ 'Z') || ('a' ≤ c && c ≤ 'z') ||
    c = '_' || c = '-'

/-- `sanitizeCode` (lines 24-26): drop every character outside
`[0-9A-Za-z_-]`.  The source's trailing `.trim()` is a no-op because no
whitespace survives the filter, so it is not repeated here. -/
def sanitizeCode (s : String) : String :=
  String.mk (s.data.filter isCodeChar)

/-- Decidable character-list test: `p` is an initial segment of `s`. -/
def leadsWith : List Char → List Char → Bool
  | [], _ => true
  | _ :: _, [] => false
  | c :: cs, d :: ds => c == d && leadsWith cs ds

/-- `isValidUrl` (lines 16-23), a model of the platform URL parser composed
with the protocol check: accepts absolute `http://` / `https://` URLs with a
non-empty remainder; finer host validation of the platform parser is elided. -/
def isValidUrl (u : String) : Bool :=
  (leadsWith "http://".data u.data && decide (u.length > 7)) ||
    (leadsWith "https://".data u.data && decide (u.length > 8))

/-- JavaScript whitespace as trimmed by `String.prototype.trim` and skipped
by `Number()` (the common ASCII subset). -/
def isJsWsChar (c : Char) : Bool :=
  c = ' ' || c = '\t' || c = '\n' || c = '\r' || c = '\x0b' || c = '\x0c'

/-- Model of JavaScript string trimming: drop leading and trailing
whitespace. -/
def jsTrim (s : String) : String :=
  String.mk (((s.data.dropWhile isJsWsChar).reverse.dropWhile isJsWsChar).reverse)

/-- Model of the platform `Number()` conversion on the validity field,
restricted to optionally-signed decimal integer numerals surrounded by
whitespace (a blank string converts to `0`); every other string is treated as
`NaN` / non-integer and maps to `none`.  Fractional, exponent and hexadecimal
numerals are outside the model. -/
def parseJsInt? (s : String) : Option Int :=
  let t := jsTrim s
  if t = "" then some 0
  else
    match t.data with
    | '-' :: ds =>
      if !ds.isEmpty && ds.all isDigitC then some (-(digitsToNat ds : Int)) else none
    | '+' :: ds =>
      if !ds.isEmpty && ds.all isDigitC then some (digitsToNat ds) else none
    | ds =>
      if !ds.isEmpty && ds.all isDigitC then some (digitsToNat ds) else none

/-- One input row of the creation form (`{ longUrl, validityMinutes,
preferredCode }`, all free-text fields). -/
structure Row where
  longUrl : String
  validityMinutes : String
  preferredCode : String
deriving DecidableEq

/-- The `e` object built by `validate` (lines 95-108): at most one error
message per field. -/
structure RowErrors where
  longUrl : Option String
  validityMinutes : Option String
  preferredCode : Option String
deriving DecidableEq

/-- `Object.keys(r.errors).length` is zero exactly when no field is set. -/
def RowErrors.isEmpty (e : RowErrors) : Bool :=
  e.longUrl.isNone && e.validityMinutes.isNone && e.preferredCode.isNone

/-- `validate(row, existing)` (lines 95-108).  `existing` is the set of
lower-cased stored codes; membership of the lower-cased sanitized preferred
code in it produces the "Code taken" error.  A non-empty validity string must
convert to a positive integer; a non-empty preferred code must survive
sanitization and be new. -/
def validate (row : Row) (existing : List String) : RowErrors :=
  { longUrl := if isValidUrl row.longUrl then none else some "Invalid URL"
    validityMinutes :=
      if row.validityMinutes = "" then none
      else
        match parseJsInt? row.validityMinutes with
        | none => some "Must be positive integer"
        | some v => if v ≤ 0 then some "Must be positive integer" else none
    preferredCode :=
      if row.preferredCode = "" then none
      else
        let sc := sanitizeCode row.preferredCode
        if sc = "" then some "Invalid characters"
        else if existing.contains (lowerStr sc) then some "Code taken"
        else none }

/-- One element of the batch sent to the simulated backend
(lines 116-120): trimmed URL, converted validity (or `null`), sanitized
preferred code (or `null` when sanitization leaves nothing). -/
structure BatchItem where
  longUrl : String
  validityMinutes : Option Int
  preferredCode : Option String
deriving DecidableEq

/-- The batch construction of lines 116-120. -/
def mkBatch (rows : List Row) : List BatchItem :=
  rows.map (fun r =>
    { longUrl := jsTrim r.longUrl
      validityMinutes := if r.validityMinutes = "" then none else parseJsInt? r.validityMinutes
      preferredCode :=
        if sanitizeCode r.preferredCode = "" then none else some (sanitizeCode r.preferredCode) })

/-- `submitToBackend` (lines 49-60): per item, a preferred code is honored
and a missing one replaced by `randomCode(6)` — modelled by the oracle `gen`
indexed by the item's position; `now()` is read per item, modelled by the
oracle `tOf`; the expiry is `createdAt + validityMinutes * 60000`, or `null`
when `validityMinutes` is null (or `0`, which is falsy in the source). -/
def submitToBackend (gen : Nat → String) (tOf : Nat → Int) :
    Nat → List BatchItem → List LinkRecord
  | _, [] => []
  | i, item :: rest =>
    let code := item.preferredCode.getD (gen i)
    let createdAt := tOf i
    let expiryTs : Option Int :=
      match item.validityMinutes with
      | some m => if m = 0 then none else some (createdAt + m * 60000)
      | none => none
    { code := code, longUrl := item.longUrl, createdAt := createdAt,
      expiryTs := expiryTs, visits := [] } :: submitToBackend gen tOf (i + 1) rest

/-- `onSubmit` (lines 110-129) over the in-memory store: build the set of
lower-cased existing codes once, validate every row against it, and stop
(store unchanged, `alert`) if any row has an error; otherwise create the
whole batch and prepend it to the store (`setLinks([...resp.created,
...links])`). -/
def onSubmit (links : List LinkRecord) (rows : List Row) (gen : Nat → String)
    (tOf : Nat → Int) : List LinkRecord :=
  let existing := links.map (fun l => lowerStr l.code)
  let validated := rows.map (fun r => validate r existing)
  if validated.any (fun e => !(e.isEmpty)) then links
  else submitToBackend gen tOf 0 (mkBatch rows) ++ links

/-! ### The statistics computation (`stats`, source lines 131-137) -/

/-- The classification `!l.expiryTs || l.expiryTs > now()` of line 133.
JavaScript `!` treats both `null` and `0` as falsy, so a record whose
`expiryTs` is `null` or `0` counts as active; otherwise the record is active
exactly when its expiry lies strictly in the future. -/
def isActive (l : LinkRecord) (t : Int) : Bool :=
  match l.expiryTs with
  | none => true
  | some e => e == 0 || decide (e > t)

/-- The derived dashboard numbers. -/
structure Stats where
  total : Nat
  active : Nat
  expired : Nat
  clicks : Nat
deriving DecidableEq

/-- `stats` (lines 131-137): totals derived on the fly from the store and the
current time; nothing is read from a stored active/expired field. -/
def stats (links : List LinkRecord) (t : Int) : Stats :=
  { total := links.length
    active := (links.filter (fun l => isActive l t)).length
    expired := links.length - (links.filter (fun l => isActive l t)).length
    clicks := links.foldl (fun s l => s + l.visits.length) 0 }

/-! ### Well-formedness of stored records (spec section 3) -/

/-- A well-formed code: non-empty and within the sanitizer's alphabet. -/
def codeWellFormed (s : String) : Bool :=
  !(s.data.isEmpty) && s.data.all isCodeChar

/-- A well-formed record per the spec's data model: sane code and an
absolute http(s) long URL. -/
def WellFormedLink (l : LinkRecord) : Bool :=
  codeWellFormed l.code && isValidUrl l.longUrl

/-- A well-formed collection: every record well-formed and codes unique
case-insensitively. -/
def WellFormedLinks (links : List LinkRecord) : Prop :=
  (∀ l ∈ links, WellFormedLink l = true) ∧
    (links.map (fun l => lowerStr l.code)).Nodup

instance wellFormedLinksDecidable (links : List LinkRecord) :
    Decidable (WellFormedLinks links) := by
  unfold WellFormedLinks
  infer_instance

/-! ### Helper lemmas about the redirect resolver -/

theorem findByCode_append (pre suf : List LinkRecord) (l : LinkRecord) (code : String)
    (hpre : ∀ p ∈ pre, p.code ≠ code) (hl : l.code = code) :
    findByCode (pre ++ l :: suf) code = some l := by
  induction pre with
  | nil =>
    simp only [List.nil_append, findByCode]
    rw [List.find?_cons_of_pos]
    simp [hl]
  | cons p ps ih =>
    have hp : (p.code == code) = false := by
      simp [hpre p (by simp)]
    simp only [List.cons_append, findByCode]
    rw [List.find?_cons_of_neg _ (by simp [hp])]
    exact ih (fun q hq => hpre q (by simp [hq]))

theorem appendVisitFirst_append (pre suf : List LinkRecord) (l : LinkRecord)
    (code : String) (v : VisitRecord)
    (hpre : ∀ p ∈ pre, p.code ≠ code) (hl : l.code = code) :
    appendVisitFirst (pre ++ l :: suf) code v =
      pre ++ { l with visits := l.visits ++ [v] } :: suf := by
  induction pre with
  | nil => simp [appendVisitFirst, hl]
  | cons p ps ih =>
    have hp : (p.code == code) = false := by
      simp [hpre p (by simp)]
    simp only [List.cons_append, appendVisitFirst, hp, Bool.false_eq_true, if_false,
      List.cons.injEq, true_and]
    exact ih (fun q hq => hpre q (by simp [hq]))

theorem findByCode_eq_none (links : List LinkRecord) (code : String) :
    findByCode links code = none ↔ ∀ l ∈ links, l.code ≠ code := by
  simp [findByCode, List.find?_eq_none]

/-- Shared decomposition of a successful redirect run: with the store split
around the first matching record, the resolver saves the store with exactly
that record's visits extended and navigates to its long URL. -/
theorem handleRedirect_decomp (hash code : String) (pre suf : List LinkRecord)
    (l : LinkRecord) (ts : Int) (referrer : String) (meta : DeviceMeta)
    (hx : extractRedirectCode hash = some code)
    (hpre : ∀ p ∈ pre, p.code ≠ code) (hl : l.code = code) :
    handleRedirect hash (pre ++ l :: suf) ts referrer meta =
      ⟨some (pre ++ { l with visits := l.visits ++ [mkVisit ts referrer meta] } :: suf),
        some l.longUrl⟩ := by
  unfold handleRedirect
  rw [hx]
  dsimp only
  rw [findByCode_append pre suf l code hpre hl,
    appendVisitFirst_append pre suf l code (mkVisit ts referrer meta) hpre hl]

/-! ### Claim theorems -/

/-- C1: for every store containing a record whose code equals the code
extracted from a fragment of the form `#/r/<code>` (the store split as
`pre ++ l :: suf` around the first such record), the resolver appends exactly
one visit record to that record's visits — prior visits kept in order —
calls `save` on the full collection, and navigates to that record's
`longUrl` by a history-replacing navigation (`window.location.replace`). -/
theorem handleRedirect_found_appends_saves_navigates (hash code : String)
    (pre suf : List LinkRecord) (l : LinkRecord) (ts : Int) (referrer : String)
    (meta : DeviceMeta)
    (hx : extractRedirectCode hash = some code)
    (hpre : ∀ p ∈ pre, p.code ≠ code) (hl : l.code = code) :
    handleRedirect hash (pre ++ l :: suf) ts referrer meta =
      ⟨some (pre ++ { l with visits := l.visits ++ [mkVisit ts referrer meta] } :: suf),
        some l.longUrl⟩ :=
  handleRedirect_decomp hash code pre suf l ts referrer meta hx hpre hl

/-- Witness for C1 at the spec's own example: store with code `"abc123"`,
fragment `#/r/abc123`. -/
theorem handleRedirect_found_witness :
    handleRedirect "#/r/abc123"
        [⟨"abc123", "https://example.com/page", 1700000000000, none, []⟩]
        1700000100000 "" ⟨"macOS", "en-US", "America/New_York", "1920x1080"⟩ =
      ⟨some [⟨"abc123", "https://example.com/page", 1700000000000, none,
          [⟨1700000100000, "(direct)", "macOS", "en-US", "America/New_York", "1920x1080"⟩]⟩],
        some "https://example.com/page"⟩ := by
  have h := handleRedirect_found_appends_saves_navigates "#/r/abc123" "abc123" [] []
    ⟨"abc123", "https://example.com/page", 1700000000000, none, []⟩
    1700000100000 "" ⟨"macOS", "en-US", "America/New_York", "1920x1080"⟩
    (by decide) (by simp) rfl
  simpa [mkVisit] using h

/-- C4: a fragment that does not match `r/<code>` after stripping `#` and an
optional `/`, or one whose extracted code has no exact match in the loaded
store, produces no store mutation (no save) and no navigation. -/
theorem handleRedirect_noop_cases (hash : String) (links : List LinkRecord)
    (ts : Int) (referrer : String) (meta : DeviceMeta) :
    (extractRedirectCode hash = none →
      handleRedirect hash links ts referrer meta = ⟨none, none⟩) ∧
    (∀ code, extractRedirectCode hash = some code → (∀ l ∈ links, l.code ≠ code) →
      handleRedirect hash links ts referrer meta = ⟨none, none⟩) := by
  constructor
  · intro hx
    unfold handleRedirect
    rw [hx]
  · intro code hx hnone
    unfold handleRedirect
    rw [hx]
    dsimp only
    rw [(findByCode_eq_none links code).mpr hnone]

/-- Witness for C4 at the spec's two examples: `#/settings` (non-matching
pattern) and `#/r/doesnotexist` (no matching record). -/
theorem handleRedirect_noop_witness :
    handleRedirect "#/settings" [⟨"abc123", "https://example.com", 0, none, []⟩]
        0 "" ⟨"Linux", "en", "UTC", "800x600"⟩ = ⟨none, none⟩ ∧
    handleRedirect "#/r/doesnotexist" [⟨"abc123", "https://example.com", 0, none, []⟩]
        0 "" ⟨"Linux", "en", "UTC", "800x600"⟩ = ⟨none, none⟩ :=
  ⟨(handleRedirect_noop_cases "#/settings" _ 0 "" _).1 (by decide),
    (handleRedirect_noop_cases "#/r/doesnotexist" _ 0 "" _).2 "doesnotexist" (by decide)
      (by decide)⟩

/-- C5: the redirect-time lookup is a case-sensitive exact match on the
`code` field: a returned record's code is character-for-character equal to
the query, and a record is returned exactly when some stored record matches
exactly — a record differing only in letter case does not count. -/
theorem findByCode_exact_match (links : List LinkRecord) (code : String) :
    (∀ r, findByCode links code = some r → r.code = code) ∧
    ((∃ r, findByCode links code = some r) ↔ ∃ r ∈ links, r.code = code) := by
  constructor
  · intro r hr
    have := List.find?_some hr
    simpa using this
  · constructor
    · rintro ⟨r, hr⟩
      refine ⟨r, List.mem_of_find?_eq_some hr, ?_⟩
      have := List.find?_some hr
      simpa using this
    · rintro ⟨r, hmem, hcode⟩
      rcases hfind : findByCode links code with - | r2
      · exact absurd hcode ((findByCode_eq_none links code).mp hfind r hmem)
      · exact ⟨r2, rfl⟩

/-- Witness for C5: a store whose only record differs from the query in
letter case alone yields not-found. -/
theorem findByCode_exact_match_witness :
    findByCode [⟨"AbC123", "https://x.io", 0, none, []⟩] "abc123" = none := by
  rcases hfind : findByCode [⟨"AbC123", "https://x.io", 0, none, []⟩] "abc123" with - | r
  · rfl
  · exact absurd ((findByCode_exact_match
      [⟨"AbC123", "https://x.io", 0, none, []⟩] "abc123").2.mp ⟨r, hfind⟩) (by decide)

/-- C10 (frame): when the resolver finds a match (position `i`, the first
matching position), the saved collection differs from the loaded one only in
that record's `visits`: same length, every other position untouched, and the
matched record keeps its `code`, `longUrl`, `createdAt` and `expiryTs`, its
visits extended by exactly the one new visit record. -/
theorem handleRedirect_frame (hash code : String) (links : List LinkRecord)
    (ts : Int) (referrer : String) (meta : DeviceMeta) (i : Nat) (hi : i < links.length)
    (hx : extractRedirectCode hash = some code)
    (hcode : links[i].code = code)
    (hfirst : ∀ p ∈ links.take i, p.code ≠ code) :
    ∃ out : List LinkRecord,
      handleRedirect hash links ts referrer meta = ⟨some out, some links[i].longUrl⟩ ∧
      out.length = links.length ∧
      (∀ j, ∀ hj1 : j < out.length, ∀ hj2 : j < links.length, j ≠ i → out[j] = links[j]) ∧
      ∀ hio : i < out.length,
        out[i].code = links[i].code ∧
        out[i].longUrl = links[i].longUrl ∧
        out[i].createdAt = links[i].createdAt ∧
        out[i].expiryTs = links[i].expiryTs ∧
        out[i].visits = links[i].visits ++ [mkVisit ts referrer meta] := by
  have hdec : links = links.take i ++ links[i] :: links.drop (i + 1) := by
    conv_lhs => rw [← List.take_append_drop i links, List.drop_eq_getElem_cons hi]
  have hres := handleRedirect_decomp hash code (links.take i) (links.drop (i + 1))
    links[i] ts referrer meta hx hfirst hcode
  have hset : links.set i
      { links[i] with visits := links[i].visits ++ [mkVisit ts referrer meta] } =
      links.take i ++
        { links[i] with visits := links[i].visits ++ [mkVisit ts referrer meta] } ::
          links.drop (i + 1) := by
    rw [List.set_eq_take_append_cons_drop]
    simp [hi]
  refine ⟨links.set i
    { links[i] with visits := links[i].visits ++ [mkVisit ts referrer meta] },
    ?_, by simp [List.length_set], ?_, ?_⟩
  · rw [hset]
    conv_lhs => rw [hdec]
    exact hres
  · intro j hj1 hj2 hne
    exact List.getElem_set_ne (by omega) hj1
  · intro hio
    rw [List.getElem_set_self hio]
    exact ⟨rfl, rfl, rfl, rfl, rfl⟩

/-- Witness for C10 at a two-record store whose second record matches. -/
theorem handleRedirect_frame_witness :
    ∃ out : List LinkRecord,
      handleRedirect "#/r/bbb"
          [⟨"aaa", "https://a.io", 1, none, []⟩, ⟨"bbb", "https://b.io", 2, some 9, []⟩]
          5 "" ⟨"Linux", "en", "UTC", "800x600"⟩ =
        ⟨some out, some ([⟨"aaa", "https://a.io", 1, none, []⟩,
            ⟨"bbb", "https://b.io", 2, some 9, []⟩] :
            List LinkRecord)[1].longUrl⟩ ∧
      out.length = ([⟨"aaa", "https://a.io", 1, none, []⟩,
          ⟨"bbb", "https://b.io", 2, some 9, []⟩] : List LinkRecord).length ∧
      (∀ j, ∀ hj1 : j < out.length,
        ∀ hj2 : j < ([⟨"aaa", "https://a.io", 1, none, []⟩,
            ⟨"bbb", "https://b.io", 2, some 9, []⟩] : List LinkRecord).length, j ≠ 1 →
        out[j] = ([⟨"aaa", "https://a.io", 1, none, []⟩,
            ⟨"bbb", "https://b.io", 2, some 9, []⟩] : List LinkRecord)[j]) ∧
      ∀ hio : 1 < out.length,
        out[1].code = "bbb" ∧
        out[1].longUrl = "https://b.io" ∧
        out[1].createdAt = 2 ∧
        out[1].expiryTs = some 9 ∧
        out[1].visits = [] ++ [mkVisit 5 "" ⟨"Linux", "en", "UTC", "800x600"⟩] :=
  handleRedirect_frame "#/r/bbb" "bbb"
    [⟨"aaa", "https://a.io", 1, none, []⟩, ⟨"bbb", "https://b.io", 2, some 9, []⟩]
    5 "" ⟨"Linux", "en", "UTC", "800x600"⟩ 1 (by decide) (by decide) rfl (by decide)

/-- C2 counterexample: the persisted string `"\x7b\x7d"` (an empty JSON
object) is not a JSON array, yet `loadLinks` returns the parsed object, not
an empty sequence — the catch only fires on a parse exception, not on a
non-array result. -/
theorem loadLinks_nonarray_counterexample :
    Json.parse "\x7b\x7d" = some (Json.obj JsonObj.nil) ∧
    loadLinks (some "\x7b\x7d") = Json.obj JsonObj.nil ∧
    Json.obj JsonObj.nil ≠ Json.arr JsonList.nil := by
  refine ⟨rfl, rfl, fun h => Json.noConfusion h⟩

/-- C2 amended: `loadLinks` returns the empty array for a missing slot, for
an empty (falsy) slot string, and for any string the JSON parser rejects;
but a successfully parsed non-empty persisted string is returned exactly as
parsed, whatever its shape. -/
theorem loadLinks_fallback (s : String) :
    loadLinks none = Json.arr JsonList.nil ∧
    loadLinks (some "") = Json.arr JsonList.nil ∧
    (Json.parse s = none → loadLinks (some s) = Json.arr JsonList.nil) ∧
    (∀ v, s ≠ "" → Json.parse s = some v → loadLinks (some s) = v) := by
  refine ⟨rfl, rfl, ?_, ?_⟩
  · intro hp
    by_cases hs : s = ""
    · subst hs
      rfl
    · unfold loadLinks
      simp only [if_neg hs, hp]
  · intro v hs hp
    unfold loadLinks
    simp only [if_neg hs, hp]

/-- Witness for C2's amended statement at a malformed persisted string. -/
theorem loadLinks_fallback_witness :
    loadLinks (some "not json") = Json.arr JsonList.nil :=
  (loadLinks_fallback "not json").2.2.1 rfl

/-- C7 counterexample: a record with `expiryTs = 0` (a past timestamp) at
current time `1` is classified active by the code — `!l.expiryTs` is true for
the falsy `0` — although `0` is neither null nor greater than the current
time, so the claim's formula classifies it expired. -/
theorem isActive_zero_expiry_counterexample :
    isActive ⟨"a1", "https://a.io", 0, some 0, []⟩ 1 = true ∧
    (⟨"a1", "https://a.io", 0, some 0, []⟩ : LinkRecord).expiryTs ≠ none ∧
    ¬((0 : Int) > 1) := by
  refine ⟨rfl, by simp, by omega⟩

/-- C7 amended: a record is classified active exactly when its `expiryTs` is
null, or zero (which JavaScript truthiness treats as "no expiry"), or
strictly greater than the current time; the classification is computed from
the stored `expiryTs` and the current time alone, and the `stats` numbers
are derived from it on the fly (no stored active/expired field exists). -/
theorem isActive_characterization (links : List LinkRecord) (l : LinkRecord) (t : Int) :
    (isActive l t = true ↔
      l.expiryTs = none ∨ l.expiryTs = some 0 ∨ ∃ e, l.expiryTs = some e ∧ e > t) ∧
    (stats links t).total = links.length ∧
    (stats links t).active = (links.filter (fun l2 => isActive l2 t)).length ∧
    (stats links t).expired = (stats links t).total - (stats links t).active := by
  refine ⟨?_, rfl, rfl, rfl⟩
  cases hexp : l.expiryTs with
  | none => simp [isActive, hexp]
  | some e =>
    simp only [isActive, hexp]
    constructor
    · intro h
      rcases Bool.or_eq_true_iff.mp h with h0 | hgt
      · have he0 : e = 0 := by simpa using h0
        exact Or.inr (Or.inl (by simp [he0]))
      · exact Or.inr (Or.inr ⟨e, rfl, by simpa using hgt⟩)
    · rintro (h | h | ⟨e2, he2, hgt⟩)
      · exact absurd h (by simp)
      · simp only [Option.some.injEq] at h
        simp [h]
      · simp only [Option.some.injEq] at he2
        subst he2
        simp [hgt]

/-- Witness for C7's amended statement: a never-expiring record is active. -/
theorem isActive_characterization_witness :
    isActive ⟨"a2", "https://a.io", 0, none, []⟩ 5 = true :=
  (isActive_characterization [] ⟨"a2", "https://a.io", 0, none, []⟩ 5).1.mpr
    (Or.inl rfl)

/-! ### Injectivity of the record encoding (needed for C9's field-for-field
reading of the round trip) -/

theorem jlist_inj : ∀ {xs ys : List Json}, jlist xs = jlist ys → xs = ys := by
  intro xs
  induction xs with
  | nil =>
    intro ys h
    cases ys with
    | nil => rfl
    | cons y ys =>
      simp only [jlist] at h
      exact JsonList.noConfusion h
  | cons x xs ih =>
    intro ys h
    cases ys with
    | nil =>
      simp only [jlist] at h
      exact JsonList.noConfusion h
    | cons y ys =>
      simp only [jlist] at h
      injection h with h1 h2
      rw [h1, ih h2]

theorem encodeVisit_inj {v1 v2 : VisitRecord} (h : encodeVisit v1 = encodeVisit v2) :
    v1 = v2 := by
  simp only [encodeVisit] at h
  injection h with h0
  injection h0 with hk1 hts h0
  injection h0 with hk2 href h0
  injection h0 with hk3 hos h0
  injection h0 with hk4 hlang h0
  injection h0 with hk5 htz h0
  injection h0 with hk6 hscreen h0
  injection hts with hts
  injection href with href
  injection hos with hos
  injection hlang with hlang
  injection htz with htz
  injection hscreen with hscreen
  cases v1
  cases v2
  simp only [VisitRecord.mk.injEq]
  exact ⟨hts, String.ext href, String.ext hos, String.ext hlang, String.ext htz,
    String.ext hscreen⟩

theorem encodeLink_inj {l1 l2 : LinkRecord} (h : encodeLink l1 = encodeLink l2) :
    l1 = l2 := by
  simp only [encodeLink] at h
  injection h with h0
  injection h0 with hk1 hcode h0
  injection h0 with hk2 hurl h0
  injection h0 with hk3 hcreated h0
  injection h0 with hk4 hexp h0
  injection h0 with hk5 hvisits h0
  injection hcode with hcode
  injection hurl with hurl
  injection hcreated with hcreated
  injection hvisits with hvisits
  have hexp2 : l1.expiryTs = l2.expiryTs := by
    cases he1 : l1.expiryTs with
    | none =>
      cases he2 : l2.expiryTs with
      | none => rfl
      | some e2 =>
        rw [he1, he2] at hexp
        exact Json.noConfusion hexp
    | some e1 =>
      cases he2 : l2.expiryTs with
      | none =>
        rw [he1, he2] at hexp
        exact Json.noConfusion hexp
      | some e2 =>
        rw [he1, he2] at hexp
        injection hexp with hexp
        rw [hexp]
  have hvis2 : l1.visits = l2.visits :=
    List.map_injective_iff.mpr (fun a b hab => encodeVisit_inj hab) (jlist_inj hvisits)
  cases l1
  cases l2
  simp only [LinkRecord.mk.injEq]
  exact ⟨String.ext hcode, String.ext hurl, hcreated, hexp2, hvis2⟩

theorem encodeLinks_inj {ls1 ls2 : List LinkRecord}
    (h : encodeLinks ls1 = encodeLinks ls2) : ls1 = ls2 := by
  unfold encodeLinks at h
  injection h with h0
  exact List.map_injective_iff.mpr (fun a b hab => encodeLink_inj hab) (jlist_inj h0)

/-- The stored string is never empty (it always starts with `[`). -/
theorem saveLinks_ne_empty (links : List LinkRecord) : saveLinks links ≠ "" := by
  intro h
  have hd := congrArg String.data h
  obtain ⟨c, cs, hvh, -, -⟩ := strVal_head (encodeLinks links)
  have : strVal (encodeLinks links) = [] := hd
  rw [hvh] at this
  exact List.noConfusion this

/-- C9: persisting a well-formed collection with `save` and reloading it
with `load` yields the collection itself: the reloaded value is exactly the
encoding of the original records, only the original collection encodes to
it (field-for-field equality at the record level), and saving the reloaded
value reproduces the stored string verbatim (the round trip is idempotent). -/
theorem save_load_round_trip (links : List LinkRecord) (h : WellFormedLinks links) :
    loadLinks (some (saveLinks links)) = encodeLinks links ∧
    (∀ links2 : List LinkRecord,
      loadLinks (some (saveLinks links)) = encodeLinks links2 → links2 = links) ∧
    Json.stringify (loadLinks (some (saveLinks links))) = saveLinks links := by
  have hmain : loadLinks (some (saveLinks links)) = encodeLinks links := by
    unfold loadLinks
    simp only [if_neg (saveLinks_ne_empty links)]
    rw [show saveLinks links = Json.stringify (encodeLinks links) from rfl, parse_stringify]
  refine ⟨hmain, ?_, by rw [hmain]; rfl⟩
  intro links2 h2
  exact encodeLinks_inj (h2.symm.trans hmain)

/-- Witness for C9 at a one-record well-formed store. -/
theorem save_load_round_trip_witness :
    loadLinks (some (saveLinks [⟨"abc123", "https://example.com/page", 1700000000000,
        some 1700003600000, [⟨1700000100000, "(direct)", "macOS", "en-US",
          "America/New_York", "1920x1080"⟩]⟩])) =
      encodeLinks [⟨"abc123", "https://example.com/page", 1700000000000,
        some 1700003600000, [⟨1700000100000, "(direct)", "macOS", "en-US",
          "America/New_York", "1920x1080"⟩]⟩] :=
  (save_load_round_trip [⟨"abc123", "https://example.com/page", 1700000000000,
      some 1700003600000, [⟨1700000100000, "(direct)", "macOS", "en-US",
        "America/New_York", "1920x1080"⟩]⟩] (by decide)).1

/-- C3: failing input for the case-insensitive uniqueness invariant.  Two
rows of one submitted batch carry preferred codes `"abc"` and `"ABC"`; both
pass validation against an empty store because the existing-codes set is
computed once from the pre-submission store (line 112) and never extended
while the batch is validated or created, so the resulting store holds two
records whose codes are equal after lowercasing. -/
theorem onSubmit_duplicate_codes_in_batch :
    onSubmit [] [⟨"https://a.com", "", "abc"⟩, ⟨"https://b.com", "", "ABC"⟩]
        (fun _ => "zzzzzz") (fun _ => 1700000000000) =
      [⟨"abc", "https://a.com", 1700000000000, none, []⟩,
       ⟨"ABC", "https://b.com", 1700000000000, none, []⟩] ∧
    lowerStr "abc" = lowerStr "ABC" ∧
    "abc" ≠ "ABC" := by
  refine ⟨by decide, by decide, by decide⟩

/-- C6: validation runs against the pre-submission store before any
mutation, and one invalid row rejects the whole batch: the store is returned
unchanged and no record is created. -/
theorem onSubmit_invalid_batch_rejected (links : List LinkRecord) (rows : List Row)
    (gen : Nat → String) (tOf : Nat → Int)
    (h : ∃ r ∈ rows,
      (validate r (links.map (fun l => lowerStr l.code))).isEmpty = false) :
    onSubmit links rows gen tOf = links := by
  unfold onSubmit
  obtain ⟨r, hr, he⟩ := h
  have hany : (rows.map (fun r2 => validate r2 (links.map (fun l => lowerStr l.code)))).any
      (fun e => !(e.isEmpty)) = true := by
    rw [List.any_eq_true]
    exact ⟨validate r (links.map (fun l => lowerStr l.code)),
      List.mem_map_of_mem _ hr, by simp [he]⟩
  simp only [hany, if_true]

/-- Witness for C6: a batch whose second row has an invalid URL leaves the
store unchanged even though its first row is valid (no partial creation). -/
theorem onSubmit_invalid_batch_witness :
    onSubmit [⟨"abc123", "https://example.com", 0, none, []⟩]
        [⟨"https://ok.com", "", ""⟩, ⟨"notaurl", "", ""⟩]
        (fun _ => "zzzzzz") (fun _ => 5) =
      [⟨"abc123", "https://example.com", 0, none, []⟩] :=
  onSubmit_invalid_batch_rejected _ _ _ _ ⟨⟨"notaurl", "", ""⟩, by decide, by decide⟩

theorem lowerStr_eq_empty {s : String} : lowerStr s = "" ↔ s = "" := by
  constructor
  · intro h
    have hd := congrArg String.data h
    simp only [lowerStr] at hd
    have : s.data.map Char.toLower = [] := hd
    exact String.ext (List.map_eq_nil_iff.mp this)
  · intro h
    subst h
    rfl

/-- C8: with a store whose codes are non-empty (every code the creation flow
produces is), a submitted preferred code is rejected as "Code taken" exactly
when its sanitized form, lowercased, equals the lowercasing of some stored
code. -/
theorem validate_taken_iff_case_insensitive (links : List LinkRecord) (row : Row)
    (hcodes : ∀ l ∈ links, l.code ≠ "") :
    (validate row (links.map (fun l => lowerStr l.code))).preferredCode =
        some "Code taken" ↔
      lowerStr (sanitizeCode row.preferredCode) ∈
        links.map (fun l => lowerStr l.code) := by
  have hmem_ne : lowerStr (sanitizeCode row.preferredCode) ∈
      links.map (fun l => lowerStr l.code) →
      sanitizeCode row.preferredCode ≠ "" ∧ row.preferredCode ≠ "" := by
    intro hmem
    obtain ⟨l, hl, heq⟩ := List.mem_map.mp hmem
    have hlne : lowerStr l.code ≠ "" :=
      fun hz => hcodes l hl (lowerStr_eq_empty.mp hz)
    constructor
    · intro hsc
      rw [hsc] at heq
      exact hlne heq
    · intro hpc
      rw [show sanitizeCode row.preferredCode = sanitizeCode "" by rw [hpc]] at heq
      exact hlne heq
  constructor
  · intro h
    by_cases hpc : row.preferredCode = ""
    · simp [validate, hpc] at h
    · by_cases hsc : sanitizeCode row.preferredCode = ""
      · simp [validate, hpc, hsc] at h
      · simp [validate, hpc, hsc] at h
        exact List.mem_map.mpr h
  · intro hmem
    obtain ⟨hsc, hpc⟩ := hmem_ne hmem
    simp [validate, hpc, hsc]
    exact List.mem_map.mp hmem

/-- Witness for C8 at the spec's example: a store containing `"AbC123"`
rejects the new preferred code `"abc123"` as taken. -/
theorem validate_taken_witness :
    (validate ⟨"https://a.com", "", "abc123"⟩
        (([⟨"AbC123", "https://x.io", 0, none, []⟩] : List LinkRecord).map
          (fun l => lowerStr l.code))).preferredCode = some "Code taken" :=
  (validate_taken_iff_case_insensitive [⟨"AbC123", "https://x.io", 0, none, []⟩]
    ⟨"https://a.com", "", "abc123"⟩ (by decide)).mpr (by decide)

end UrlShort
